import Mathlib

/-!
Verification development for the `onms-discovery-config` repository.

The repository maintains sets of IP address intervals for an OpenNMS
discovery configuration.  Its core is:

* an address codec (`IP2Int` / `Int2IP`, file modelled from
  `src/unnamed/part_001`) converting between IP addresses and
  arbitrary-precision integers,
* an interval engine (`IPAddressRange` / `IPAddressRangeSet`) in two
  variants: a `math/big` based one (`src/unnamed/part_000`, namespace
  `BigIP` below) and a `uint32` based one (`src/ipranges.go`, namespace
  `U32` below),
* a configuration model (`Definition` in `src/discovery.go`) with CIDR
  expansion (`getRange`), include/exclude range management, and an
  estimated-address counter running in `uint32` arithmetic.

Modelling conventions used throughout this file:

* An IP address is modelled by its canonical byte sequence (the Go code's
  `To4()` form for IPv4, `To16()` for IPv6): a `List Nat` of bytes, each
  `< 256`, length 4 or 16 for well-formed addresses.  `IP2Int` of a
  `net.IP` only depends on these bytes.
* Where the Go code compares addresses it always does so through
  `IP2Int` (or `binary.BigEndian.Uint32`), so interval endpoints are
  modelled directly by their integer value (`Nat`).
* Go slice semantics are modelled exactly.  In `IPAddressRangeSet.Add`
  the `for i, n := range r.ipRanges` loop captures the slice header once;
  the in-place `append` used for removal shifts the shared underlying
  array while the loop keeps indexing the original length.  The model
  below (`addLoop`) therefore carries the underlying array (`arr`, whose
  length never changes during one call), the current slice length
  (`cur`), and the loop index; out-of-range slice expressions, which
  panic in Go, yield `none`.
-/

set_option maxRecDepth 20000

/-- `IP2Int` from the conversion file (`src/unnamed/part_001`):
`big.Int.SetBytes` of the canonical byte form of the address, i.e. the
big-endian base-256 value of the bytes. -/
def IP2Int (ip : List Nat) : Nat :=
  ip.foldl (fun a b => 256 * a + b) 0

/-- Big-endian byte sequence of `n` with no leading zero bytes, computed
with explicit fuel so that it evaluates by kernel reduction.  With
`fuel ≥ n` this is exactly `big.Int.Bytes()`. -/
def natToBytesF (fuel : Nat) (n : Nat) : List Nat :=
  match fuel with
  | 0 => []
  | f + 1 => if n = 0 then [] else natToBytesF f (n / 256) ++ [n % 256]

/-- `Int2IP` from the conversion file (`src/unnamed/part_001`):
`net.IP(ipaddr.Bytes())`, the minimal big-endian byte sequence of the
integer (empty for 0, and with no leading zero bytes). -/
def Int2IP (n : Nat) : List Nat :=
  natToBytesF n n

/-- `IPAddressRange`: one closed interval of IP addresses plus scan
metadata.  `Begin` and `End` hold the `IP2Int` value of the stored
`net.IP` endpoints (all comparisons in the source go through that
conversion). -/
structure IPAddressRange where
  Begin : Nat
  End : Nat
  Location : String
  Retries : Int
  Timeout : Int
  ForeignSource : String
deriving DecidableEq

namespace BigIP

/-! The `math/big` variant of the interval engine
(`src/unnamed/part_000`).  `isSuccessorOf`/`isPredecessorOf` compare
exact integers: `an == bn + 1` and `an == bn - 1` over `big.Int`, the
latter rendered as `an + 1 = bn` (equivalent over ℤ, and for `bn = 0`
both sides are false since `an ≥ 0`). -/

def Contains (r : IPAddressRange) (ip : Nat) : Bool :=
  decide (ip ≥ r.Begin) && decide (ip ≤ r.End)

def Overlaps (r ipr : IPAddressRange) : Bool :=
  Contains r ipr.Begin || Contains r ipr.End || Contains ipr r.Begin || Contains ipr r.End

def ComesBefore (r ipr : IPAddressRange) : Bool :=
  decide (r.End < ipr.Begin)

def ComesAfter (r ipr : IPAddressRange) : Bool :=
  decide (r.Begin > ipr.End)

def isSuccessorOf (a b : Nat) : Bool :=
  decide (a = b + 1)

def isPredecessorOf (a b : Nat) : Bool :=
  decide (a + 1 = b)

def comesImmediatelyAfter (r ipr : IPAddressRange) : Bool :=
  ComesAfter r ipr && isSuccessorOf r.Begin ipr.End

def comesImmediatelyBefore (r ipr : IPAddressRange) : Bool :=
  ComesBefore r ipr && isPredecessorOf r.End ipr.Begin

def AdjacentJoins (r ipr : IPAddressRange) : Bool :=
  comesImmediatelyBefore r ipr || comesImmediatelyAfter r ipr

def Combinable (r ipr : IPAddressRange) : Bool :=
  Overlaps r ipr || AdjacentJoins r ipr

def IsSingleton (r : IPAddressRange) : Bool :=
  decide (r.Begin = r.End)

/-- `IPAddressRange.Combine` of `src/unnamed/part_000`: span of the two
intervals; metadata copied from the receiver `r`. -/
def Combine (r ipr : IPAddressRange) : IPAddressRange :=
  { Begin := if ipr.Begin < r.Begin then ipr.Begin else r.Begin
    End := if ipr.End > r.End then ipr.End else r.End
    Location := r.Location
    Timeout := r.Timeout
    Retries := r.Retries
    ForeignSource := r.ForeignSource }

/-- The loop body of `IPAddressRangeSet.Add` (`src/unnamed/part_000`),
with Go slice semantics made explicit.  `arr` is the underlying array
captured by `for i, n := range r.ipRanges` (its length is invariant
during the call), `cur` the current length of `r.ipRanges`, `i` the loop
index, and `fuel` the number of remaining iterations (`arr.length - i`).
The removal `append(r.ipRanges[:i], r.ipRanges[i+1:]...)` shifts
elements `i+1..cur-1` left in place, leaving position `cur-1` stale;
it panics (here: `none`) when `i + 1 > cur`.  The insertion
`append(r.ipRanges[:idx+1], r.ipRanges[idx:]...)` with
`idx = i - 1` (clamped to `0` by the source's `if idx < 0` guard, which
truncated `Nat` subtraction renders exactly) copies with memmove
semantics and panics when `idx > cur`. -/
def addLoop : Nat → IPAddressRange → List IPAddressRange → Nat → Nat →
    Option (List IPAddressRange)
  | 0, ipr, arr, cur, _ => some (arr.take cur ++ [ipr])
  | fuel + 1, ipr, arr, cur, i =>
    match arr[i]? with
    | none => none
    | some n =>
      if ComesBefore ipr n && !AdjacentJoins ipr n then
        if i - 1 ≤ cur then
          some (((arr.take (i - 1 + 1)) ++ ((arr.take cur).drop (i - 1))).set (i - 1) ipr)
        else none
      else if Combinable n ipr then
        if i + 1 ≤ cur then
          addLoop fuel (Combine n ipr)
            (arr.take i ++ ((arr.take cur).drop (i + 1)) ++ arr.drop (cur - 1))
            (cur - 1) (i + 1)
        else none
      else addLoop fuel ipr arr cur (i + 1)

/-- `IPAddressRangeSet.Add` (`src/unnamed/part_000`).  `some l` is the
slice `Get` returns after the call; `none` is a runtime panic. -/
def Add (s : List IPAddressRange) (ipr : IPAddressRange) : Option (List IPAddressRange) :=
  addLoop s.length ipr s s.length 0

/-- A whole sequence of `Add` calls on a fresh `IPAddressRangeSet`. -/
def addSeq (l : List IPAddressRange) : Option (List IPAddressRange) :=
  l.foldlM Add []

/-- The invariant claimed of the set: adjacent output pairs `(a, b)` are
sorted ascending by begin and separated by `b.Begin > a.End + 1`. -/
def pairwiseSeparated : List IPAddressRange → Bool
  | [] => true
  | [_] => true
  | a :: b :: t =>
    decide (a.Begin < b.Begin) && decide (a.End + 1 < b.Begin) && pairwiseSeparated (b :: t)

end BigIP

namespace U32

/-! The `uint32` variant of the interval engine (`src/ipranges.go`).
Addresses are `binary.BigEndian.Uint32` values (`< 2^32`); successor and
predecessor wrap modulo `2^32` because they are computed in `uint32`
arithmetic.  `IPAddressRange.Combine` here copies the metadata from the
**argument** `ipr` (the interval being inserted), unlike the `math/big`
variant which copies it from the receiver.  The insertion branch of
`Add` has no `if idx < 0` clamp: when the branch fires at loop index
`i = 0` the slice expression `r.ipRanges[idx:]` with `idx = -1` panics. -/

def Contains (r : IPAddressRange) (ip : Nat) : Bool :=
  decide (ip ≥ r.Begin) && decide (ip ≤ r.End)

def Overlaps (r ipr : IPAddressRange) : Bool :=
  Contains r ipr.Begin || Contains r ipr.End || Contains ipr r.Begin || Contains ipr r.End

def ComesBefore (r ipr : IPAddressRange) : Bool :=
  decide (r.End < ipr.Begin)

def ComesAfter (r ipr : IPAddressRange) : Bool :=
  decide (r.Begin > ipr.End)

def isSuccessorOf (a b : Nat) : Bool :=
  decide (a = (b + 1) % 2 ^ 32)

def isPredecessorOf (a b : Nat) : Bool :=
  decide (a = (b + (2 ^ 32 - 1)) % 2 ^ 32)

def comesImmediatelyAfter (r ipr : IPAddressRange) : Bool :=
  ComesAfter r ipr && isSuccessorOf r.Begin ipr.End

def comesImmediatelyBefore (r ipr : IPAddressRange) : Bool :=
  ComesBefore r ipr && isPredecessorOf r.End ipr.Begin

def AdjacentJoins (r ipr : IPAddressRange) : Bool :=
  comesImmediatelyBefore r ipr || comesImmediatelyAfter r ipr

def Combinable (r ipr : IPAddressRange) : Bool :=
  Overlaps r ipr || AdjacentJoins r ipr

/-- `IPAddressRange.Combine` of `src/ipranges.go`: span of the two
intervals; metadata copied from the argument `ipr`. -/
def Combine (r ipr : IPAddressRange) : IPAddressRange :=
  { Begin := if ipr.Begin < r.Begin then ipr.Begin else r.Begin
    End := if ipr.End > r.End then ipr.End else r.End
    Location := ipr.Location
    Timeout := ipr.Timeout
    Retries := ipr.Retries
    ForeignSource := ipr.ForeignSource }

/-- Loop of `IPAddressRangeSet.Add` in `src/ipranges.go`; identical to
`BigIP.addLoop` except for the predicates, `Combine`, and the missing
clamp: at `i = 0` the insertion branch slices with index `-1` and
panics (`none`). -/
def addLoop : Nat → IPAddressRange → List IPAddressRange → Nat → Nat →
    Option (List IPAddressRange)
  | 0, ipr, arr, cur, _ => some (arr.take cur ++ [ipr])
  | fuel + 1, ipr, arr, cur, i =>
    match arr[i]? with
    | none => none
    | some n =>
      if ComesBefore ipr n && !AdjacentJoins ipr n then
        if i = 0 then none
        else if i - 1 ≤ cur then
          some (((arr.take (i - 1 + 1)) ++ ((arr.take cur).drop (i - 1))).set (i - 1) ipr)
        else none
      else if Combinable n ipr then
        if i + 1 ≤ cur then
          addLoop fuel (Combine n ipr)
            (arr.take i ++ ((arr.take cur).drop (i + 1)) ++ arr.drop (cur - 1))
            (cur - 1) (i + 1)
        else none
      else addLoop fuel ipr arr cur (i + 1)

/-- `IPAddressRangeSet.Add` (`src/ipranges.go`). -/
def Add (s : List IPAddressRange) (ipr : IPAddressRange) : Option (List IPAddressRange) :=
  addLoop s.length ipr s s.length 0

/-- A sequence of `Add` calls on a fresh `IPAddressRangeSet`. -/
def addSeq (l : List IPAddressRange) : Option (List IPAddressRange) :=
  l.foldlM Add []

end U32

def mkRange (b e : Nat) : IPAddressRange :=
  ⟨b, e, "", 0, 0, ""⟩

/-! ## The configuration model (`src/discovery.go`)

`Definition` keeps only the fields the claims are about.  Specifics and
range endpoints are stored as `IP2Int` values: every use the claims
touch (`GetTotalEstimatedAddresses`, `excludeRangesContain`,
the `end >= begin` guard of `AddIncludeRange`/`AddExcludeRange`)
compares addresses through `IP2Int` only. -/

structure Definition where
  Specifics : List Nat
  IncludeRanges : List (Nat × Nat)
  ExcludeRanges : List (Nat × Nat)
deriving DecidableEq

/-- `Definition.AddSpecific`: `net.ParseIP` of the argument is modelled
by an `Option (List Nat)` (the canonical bytes on success, `none` when
the literal does not parse).  On `none` the Go function just `return`s:
the definition is unchanged and no error is reported (the function has
no return value). -/
def Definition.AddSpecific (d : Definition) (specific : Option (List Nat)) : Definition :=
  match specific with
  | none => d
  | some ip => { d with Specifics := d.Specifics ++ [IP2Int ip] }

/-- `Definition.AddIncludeRange` on the parse results of its two string
arguments.  When either literal fails to parse the function silently
returns; otherwise the range is appended only when `end >= begin`
(compared through `IP2Int`). -/
def Definition.AddIncludeRange (d : Definition) (b e : Option (List Nat)) : Definition :=
  match b, e with
  | some bip, some eip =>
    if IP2Int eip ≥ IP2Int bip then
      { d with IncludeRanges := d.IncludeRanges ++ [(IP2Int bip, IP2Int eip)] }
    else d
  | _, _ => d

/-- `Definition.AddExcludeRange`, same shape as `AddIncludeRange`. -/
def Definition.AddExcludeRange (d : Definition) (b e : Option (List Nat)) : Definition :=
  match b, e with
  | some bip, some eip =>
    if IP2Int eip ≥ IP2Int bip then
      { d with ExcludeRanges := d.ExcludeRanges ++ [(IP2Int bip, IP2Int eip)] }
    else d
  | _, _ => d

/-- One byte of `net.CIDRMask prefixLen`: byte `j` has its high
`min 8 (prefixLen - 8*j)` bits set.  `Nat.land b mask` is written
arithmetically for the partial byte (for `b < 256` clearing the low `k`
bits is `b / 2^k * 2^k`). -/
def maskByte (prefixLen j b : Nat) : Nat :=
  if 8 * (j + 1) ≤ prefixLen then b
  else if prefixLen ≤ 8 * j then 0
  else b / 2 ^ (8 - (prefixLen - 8 * j)) * 2 ^ (8 - (prefixLen - 8 * j))

/-- `ip.Mask(CIDRMask prefixLen)`: the network address bytes that
`net.ParseCIDR` stores in `network.IP`. -/
def maskBytes (ip : List Nat) (prefixLen : Nat) : List Nat :=
  (List.range ip.length).zipWith (fun j b => maskByte prefixLen j b) ip

/-- In-place mutation of the last byte of an address
(`ip[len(ip)-1]++` / `--`).  For the empty list the Go code panics with
index `-1`; that case is reachable only for a network address of integer
value `0` (e.g. `0.0.0.0/32`, where `Int2IP` returns no bytes) and is
modelled by returning `[]`. -/
def modifyLast (f : Nat → Nat) : List Nat → List Nat
  | [] => []
  | [b] => [f b]
  | b :: t => b :: modifyLast f t

/-- `Definition.getRange` (`src/discovery.go`) on a parsed CIDR: the
network bytes come from `net.ParseCIDR` (address masked to the prefix),
`bits` is the total mask size (8 bits per byte), and the host part is
OR-ed in before the first address is incremented and the last address
decremented byte-wise (wrapping modulo 256, as Go byte arithmetic
does). -/
def Definition.getRange (ipBytes : List Nat) (prefixLen : Nat) : List Nat × List Nat :=
  let firstIP := maskBytes ipBytes prefixLen
  let bits := 8 * firstIP.length
  let firstIPInt := IP2Int firstIP
  let hostLen := bits - prefixLen
  let lastIPInt := Nat.lor (2 ^ hostLen - 1) firstIPInt
  let lastIP := Int2IP lastIPInt
  (modifyLast (fun b => (b + 1) % 256) firstIP,
   modifyLast (fun b => (b + 255) % 256) lastIP)

/-- `ip.String()` followed by `net.ParseIP`, as performed between
`getRange` and `AddIncludeRange`/`AddExcludeRange`.  A canonical 4- or
16-byte address prints and reparses to an address with the same
`IP2Int` value; any other length prints as `"?"`-hex, which does not
parse. -/
def reparse (ip : List Nat) : Option (List Nat) :=
  if ip.length = 4 ∨ ip.length = 16 then some ip else none

/-- `Definition.IncludeCIDR` on a parsed CIDR (the `err` branch of
`getRange` cannot fire once the CIDR is parsed). -/
def Definition.IncludeCIDR (d : Definition) (ipBytes : List Nat) (prefixLen : Nat) :
    Definition :=
  let r := Definition.getRange ipBytes prefixLen
  d.AddIncludeRange (reparse r.1) (reparse r.2)

/-- `Definition.ExcludeCIDR` on a parsed CIDR. -/
def Definition.ExcludeCIDR (d : Definition) (ipBytes : List Nat) (prefixLen : Nat) :
    Definition :=
  let r := Definition.getRange ipBytes prefixLen
  d.AddExcludeRange (reparse r.1) (reparse r.2)

/-- `Definition.excludeRangesContain` (the private, `big.Int` one used
by `GetTotalEstimatedAddresses`). -/
def excludeRangesContain (ex : List (Nat × Nat)) (ip : Nat) : Bool :=
  ex.any (fun p => decide (p.1 ≤ ip) && decide (ip ≤ p.2))

/-- Reference count of the addresses `i, i+1, ..., i+fuel-1` that are in
no exclude range, in unbounded arithmetic. -/
def countFrom (fuel i : Nat) (ex : List (Nat × Nat)) : Nat :=
  match fuel with
  | 0 => 0
  | f + 1 => (if excludeRangesContain ex i then 0 else 1) + countFrom f (i + 1) ex

/-- The inner loop of `GetTotalEstimatedAddresses` as written: the
running total is a `uint32`, so each `total++` wraps modulo `2^32`. -/
def countFromU (fuel i : Nat) (ex : List (Nat × Nat)) (t : Nat) : Nat :=
  match fuel with
  | 0 => t
  | f + 1 =>
    countFromU f (i + 1) ex (if excludeRangesContain ex i then t else (t + 1) % 2 ^ 32)

/-- `big.Int.Int64()` as performed by the loop guard of
`GetTotalEstimatedAddresses`: the Go documentation leaves the result
undefined when the value does not fit in an `int64`; the `gc`
implementation returns the low 64 bits as a two's-complement signed
value, which is what this models. -/
def toInt64 (n : Nat) : Int :=
  if n % 2 ^ 64 < 2 ^ 63 then ((n % 2 ^ 64 : Nat) : Int)
  else ((n % 2 ^ 64 : Nat) : Int) - 2 ^ 64

/-- The include-range loop of `GetTotalEstimatedAddresses` as written:
`for i := a; i.Int64() <= b.Int64(); i.Add(i, big.NewInt(1))`, with a
`uint32` running total.  `K` is `toInt64 b` (constant through the
loop).  `none` models non-termination: the loop is run with fuel
`2^64 + 1`, and if the guard holds for `2^64 + 1` consecutive values of
`i` then `toInt64 i` has passed through every signed value, including
the maximum `2^63 - 1`, so `K = 2^63 - 1` and the guard holds forever —
the Go loop never returns. -/
def countLoopT (fuel : Nat) (i : Nat) (K : Int) (ex : List (Nat × Nat)) (t : Nat) :
    Option Nat :=
  match fuel with
  | 0 => none
  | f + 1 =>
    if toInt64 i ≤ K then
      countLoopT f (i + 1) K ex (if excludeRangesContain ex i then t else (t + 1) % 2 ^ 32)
    else some t

/-- One include range's contribution to the `uint32` total, starting
from accumulator `t`. -/
def countRangeU (a b : Nat) (ex : List (Nat × Nat)) (t : Nat) : Option Nat :=
  countLoopT (2 ^ 64 + 1) a (toInt64 b) ex t

/-- `Definition.GetTotalEstimatedAddresses` (`src/discovery.go`): a
`uint32` total accumulated over every include range — the loop guard
compares `i.Int64() <= b.Int64()`, so it is exact only while the
addresses fit in an `int64` — and then over every specific.  `none` is
a non-terminating loop. -/
def Definition.GetTotalEstimatedAddresses (d : Definition) : Option Nat :=
  (List.foldlM (fun t r => countRangeU r.1 r.2 d.ExcludeRanges t) 0 d.IncludeRanges).map
    (fun t1 => d.Specifics.foldl
      (fun t ip => if excludeRangesContain d.ExcludeRanges ip then t else (t + 1) % 2 ^ 32) t1)

/-- The true (unbounded) exclusion-aware address count of a definition:
every address of every include range (all `b + 1 - a` of them) and
every specific that no exclude range contains. -/
def trueCount (d : Definition) : Nat :=
  (d.IncludeRanges.map (fun r => countFrom (r.2 + 1 - r.1) r.1 d.ExcludeRanges)).sum
    + (d.Specifics.filter (fun ip => !excludeRangesContain d.ExcludeRanges ip)).length

/-- `DiscoveryConfiguration`, reduced to its list of definitions. -/
structure DiscoveryConfiguration where
  Definitions : List Definition

/-- `DiscoveryConfiguration.GetTotalEstimatedAddresses`: the per-
definition `uint32` totals are summed in a `uint32` accumulator; a
definition whose counting loop diverges makes the whole call diverge. -/
def DiscoveryConfiguration.GetTotalEstimatedAddresses (cfg : DiscoveryConfiguration) :
    Option Nat :=
  List.foldlM
    (fun t d => (Definition.GetTotalEstimatedAddresses d).map (fun v => (t + v) % 2 ^ 32))
    0 cfg.Definitions

/-! ## Helper lemmas: the `uint32` accumulator versus the true count -/

theorem countFromU_eq_mod (fuel : Nat) : ∀ (i : Nat) (ex : List (Nat × Nat)) (t : Nat),
    t < 2 ^ 32 → countFromU fuel i ex t = (t + countFrom fuel i ex) % 2 ^ 32 := by
  induction fuel with
  | zero =>
    intro i ex t ht
    simp only [countFromU, countFrom, Nat.add_zero]
    omega
  | succ f ih =>
    intro i ex t ht
    by_cases h : excludeRangesContain ex i
    · simp only [countFromU, countFrom, h, if_true]
      rw [ih _ _ _ ht]
      omega
    · simp only [countFromU, countFrom, h, if_false, Bool.false_eq_true]
      rw [ih _ _ _ (Nat.mod_lt _ (by norm_num))]
      omega

theorem toInt64_small (n : Nat) (h : n < 2 ^ 63) : toInt64 n = (n : Int) := by
  unfold toInt64
  rw [Nat.mod_eq_of_lt (by omega)]
  rw [if_pos h]

theorem countLoopT_exit : ∀ (n fuel a : Nat) (K : Int) (ex : List (Nat × Nat)) (t : Nat),
    n < fuel → (∀ j, j < n → toInt64 (a + j) ≤ K) → K < toInt64 (a + n) →
    countLoopT fuel a K ex t = some (countFromU n a ex t) := by
  intro n
  induction n with
  | zero =>
    intro fuel a K ex t hf _ hstop
    obtain ⟨f, rfl⟩ : ∃ f, fuel = f + 1 := ⟨fuel - 1, by omega⟩
    rw [Nat.add_zero] at hstop
    simp only [countLoopT, countFromU]
    rw [if_neg (by omega)]
  | succ n ih =>
    intro fuel a K ex t hf hj hstop
    obtain ⟨f, rfl⟩ : ∃ f, fuel = f + 1 := ⟨fuel - 1, by omega⟩
    simp only [countLoopT]
    have h0 : toInt64 a ≤ K := by
      have := hj 0 (by omega)
      rwa [Nat.add_zero] at this
    rw [if_pos h0]
    rw [ih f (a + 1) K ex _ (by omega)
      (fun j hjn => by
        have := hj (j + 1) (by omega)
        rwa [show a + (j + 1) = a + 1 + j by omega] at this)
      (by rwa [show a + (n + 1) = a + 1 + n by omega] at hstop)]
    rfl

theorem countRangeU_small (a b : Nat) (ex : List (Nat × Nat)) (t : Nat)
    (hab : a ≤ b + 1) (hb : b + 1 < 2 ^ 63) :
    countRangeU a b ex t = some (countFromU (b + 1 - a) a ex t) := by
  unfold countRangeU
  apply countLoopT_exit
  · omega
  · intro j hjn
    rw [toInt64_small (a + j) (by omega), toInt64_small b (by omega)]
    omega
  · rw [toInt64_small (a + (b + 1 - a)) (by omega), toInt64_small b (by omega)]
    omega

theorem foldlM_ranges_eq_mod (rs : List (Nat × Nat)) (ex : List (Nat × Nat)) :
    ∀ t : Nat, t < 2 ^ 32 → (∀ r ∈ rs, r.1 ≤ r.2 + 1 ∧ r.2 + 1 < 2 ^ 63) →
    List.foldlM (fun t r => countRangeU r.1 r.2 ex t) t rs
      = some ((t + (rs.map (fun r => countFrom (r.2 + 1 - r.1) r.1 ex)).sum) % 2 ^ 32) := by
  induction rs with
  | nil =>
    intro t ht _
    simp only [List.foldlM_nil, List.map_nil, List.sum_nil, Nat.add_zero]
    rw [Nat.mod_eq_of_lt ht]
    rfl
  | cons r rs ih =>
    intro t ht hr
    rw [List.foldlM_cons]
    rw [countRangeU_small r.1 r.2 ex t (hr r (List.mem_cons_self r rs)).1
      (hr r (List.mem_cons_self r rs)).2]
    rw [countFromU_eq_mod _ _ _ _ ht]
    simp only [Option.bind_eq_bind, Option.some_bind, List.map_cons, List.sum_cons]
    rw [ih _ (Nat.mod_lt _ (by norm_num)) (fun q hq => hr q (List.mem_cons_of_mem r hq))]
    exact congrArg some (by omega)

theorem foldl_specifics_eq_mod (ips : List Nat) (ex : List (Nat × Nat)) :
    ∀ t : Nat, t < 2 ^ 32 →
    ips.foldl (fun t ip => if excludeRangesContain ex ip then t else (t + 1) % 2 ^ 32) t
      = (t + (ips.filter (fun ip => !excludeRangesContain ex ip)).length) % 2 ^ 32 := by
  induction ips with
  | nil =>
    intro t ht
    simp only [List.foldl_nil, List.map_nil, List.sum_nil, List.filter_nil,
      List.length_nil, Nat.add_zero]
    omega
  | cons ip ips ih =>
    intro t ht
    by_cases h : excludeRangesContain ex ip
    · simp only [List.foldl_cons, h, if_true, List.filter_cons, Bool.not_eq_true']
      rw [ih _ ht]
      simp [h]
    · simp only [List.foldl_cons, h, if_false, Bool.false_eq_true, List.filter_cons]
      rw [ih _ (Nat.mod_lt _ (by norm_num))]
      simp only [h, Bool.not_false, if_true, List.length_cons]
      omega

theorem defTotal_eq_mod (d : Definition)
    (hd : ∀ r ∈ d.IncludeRanges, r.1 ≤ r.2 + 1 ∧ r.2 + 1 < 2 ^ 63) :
    d.GetTotalEstimatedAddresses = some (trueCount d % 2 ^ 32) := by
  unfold Definition.GetTotalEstimatedAddresses trueCount
  rw [foldlM_ranges_eq_mod _ _ 0 (by norm_num) hd]
  rw [Option.map_some']
  rw [foldl_specifics_eq_mod _ _ _ (Nat.mod_lt _ (by norm_num))]
  exact congrArg some (by omega)

theorem cfgFoldM_eq_mod (ds : List Definition) : ∀ t : Nat, t < 2 ^ 32 →
    (∀ d ∈ ds, ∀ r ∈ d.IncludeRanges, r.1 ≤ r.2 + 1 ∧ r.2 + 1 < 2 ^ 63) →
    List.foldlM
        (fun t d => (Definition.GetTotalEstimatedAddresses d).map (fun v => (t + v) % 2 ^ 32))
        t ds
      = some ((t + (ds.map trueCount).sum) % 2 ^ 32) := by
  induction ds with
  | nil =>
    intro t ht _
    simp only [List.foldlM_nil, List.map_nil, List.sum_nil, Nat.add_zero]
    rw [Nat.mod_eq_of_lt ht]
    rfl
  | cons d ds ih =>
    intro t ht hd
    rw [List.foldlM_cons, defTotal_eq_mod d (hd d (List.mem_cons_self d ds))]
    simp only [Option.map_some', Option.bind_eq_bind, Option.some_bind,
      List.map_cons, List.sum_cons]
    rw [ih _ (Nat.mod_lt _ (by norm_num)) (fun q hq => hd q (List.mem_cons_of_mem d hq))]
    exact congrArg some (by omega)

/-! ## Helper lemmas: splitting the counting loop over intervals -/

theorem countFrom_split (f1 : Nat) : ∀ (f2 i : Nat) (ex : List (Nat × Nat)),
    countFrom (f1 + f2) i ex = countFrom f1 i ex + countFrom f2 (i + f1) ex := by
  induction f1 with
  | zero => intro f2 i ex; simp [countFrom]
  | succ f ih =>
    intro f2 i ex
    have hs : f + 1 + f2 = (f + f2) + 1 := by omega
    rw [hs]
    simp only [countFrom]
    rw [ih]
    have ha : i + 1 + f = i + (f + 1) := by omega
    rw [ha]
    omega

theorem countFrom_clean (fuel : Nat) : ∀ (i : Nat) (ex : List (Nat × Nat)),
    (∀ p ∈ ex, p.2 < i ∨ i + fuel ≤ p.1) → countFrom fuel i ex = fuel := by
  induction fuel with
  | zero => intro i ex _; simp [countFrom]
  | succ f ih =>
    intro i ex h
    have hni : excludeRangesContain ex i = false := by
      simp only [excludeRangesContain, List.any_eq_false]
      intro p hp
      simp only [Bool.and_eq_true, decide_eq_true_eq, not_and]
      rcases h p hp with h1 | h1 <;> omega
    simp only [countFrom, hni, Bool.false_eq_true, if_false]
    rw [ih (i + 1) ex (fun p hp => by rcases h p hp with h1 | h1 <;> omega)]
    omega

theorem countFrom_covered (fuel : Nat) : ∀ (i : Nat) (ex : List (Nat × Nat)) (p : Nat × Nat),
    p ∈ ex → p.1 ≤ i → i + fuel ≤ p.2 + 1 → countFrom fuel i ex = 0 := by
  induction fuel with
  | zero => intro i ex p _ _ _; simp [countFrom]
  | succ f ih =>
    intro i ex p hp h1 h2
    have hi : excludeRangesContain ex i = true := by
      simp only [excludeRangesContain, List.any_eq_true]
      exact ⟨p, hp, by simp only [Bool.and_eq_true, decide_eq_true_eq]; omega⟩
    simp only [countFrom, hi, if_true]
    rw [ih (i + 1) ex p hp (by omega) (by omega)]

/-! ## Helper lemmas: where `Add` splices the new interval in -/

theorem set_take_append_drop {α : Type} (x : α) :
    ∀ (l : List α) (k : Nat), k < l.length →
    ((l.take (k + 1)) ++ l.drop k).set k x = l.take k ++ x :: l.drop k := by
  intro l
  induction l with
  | nil => intro k h; simp at h
  | cons a t ih =>
    intro k h
    cases k with
    | zero => rfl
    | succ k =>
      simp only [List.take_succ_cons, List.drop_succ_cons, List.cons_append,
        List.set_cons_succ]
      exact congrArg (a :: ·) (ih k (by simpa using Nat.lt_of_succ_lt_succ h))

theorem addLoop_insert_aux (ipr n : IPAddressRange) (post : List IPAddressRange) :
    ∀ (pre front : List IPAddressRange),
    (∀ m ∈ pre, (BigIP.ComesBefore ipr m && !BigIP.AdjacentJoins ipr m) = false ∧
        BigIP.Combinable m ipr = false) →
    (BigIP.ComesBefore ipr n && !BigIP.AdjacentJoins ipr n) = true →
    BigIP.addLoop (pre.length + (post.length + 1)) ipr (front ++ pre ++ n :: post)
        (front ++ pre ++ n :: post).length front.length
      = some ((front ++ pre ++ n :: post).take (front.length + pre.length - 1)
          ++ ipr :: (front ++ pre ++ n :: post).drop (front.length + pre.length - 1)) := by
  intro pre
  induction pre with
  | nil =>
    intro front _ hn
    simp only [List.nil_append, List.append_nil, List.length_nil, Nat.zero_add,
      Nat.add_zero]
    rw [BigIP.addLoop.eq_2]
    rw [List.getElem?_append_right (Nat.le_refl front.length)]
    simp only [Nat.sub_self, List.getElem?_cons_zero]
    rw [hn]
    simp only [if_true]
    have hk : front.length - 1 ≤ (front ++ n :: post).length := by
      simp [List.length_append]; omega
    rw [if_pos hk, List.take_length]
    have hlt : front.length - 1 < (front ++ n :: post).length := by
      simp [List.length_append]; omega
    rw [set_take_append_drop ipr _ _ hlt]
  | cons m pre ih =>
    intro front hpre hn
    have h1 := (hpre m (List.mem_cons_self m pre)).1
    have h2 := (hpre m (List.mem_cons_self m pre)).2
    have harr : front ++ (m :: pre) ++ n :: post = front ++ m :: (pre ++ n :: post) := by
      simp
    rw [harr]
    have hfuel : (m :: pre).length + (post.length + 1)
        = (pre.length + (post.length + 1)) + 1 := by
      simp [List.length_cons]; omega
    rw [hfuel]
    rw [BigIP.addLoop.eq_2]
    rw [List.getElem?_append_right (Nat.le_refl front.length)]
    simp only [Nat.sub_self, List.getElem?_cons_zero]
    rw [h1]
    simp only [Bool.false_eq_true, if_false]
    rw [h2]
    simp only [Bool.false_eq_true, if_false]
    have harr2 : front ++ m :: (pre ++ n :: post) = (front ++ [m]) ++ pre ++ n :: post := by
      simp
    have hidx : front.length + 1 = (front ++ [m]).length := by simp
    rw [harr2, hidx]
    rw [ih (front ++ [m]) (fun q hq => hpre q (List.mem_cons_of_mem m hq)) hn]
    have hlen : (front ++ [m]).length + pre.length = front.length + (m :: pre).length := by
      simp [List.length_append, List.length_cons]; omega
    rw [hlen, ← harr2, ← harr]

/-! ## Helper lemmas: the address codec -/

theorem natToBytesF_zero_val (f : Nat) : natToBytesF f 0 = [] := by
  cases f <;> simp [natToBytesF]

theorem natToBytesF_congr : ∀ (n f g : Nat), n ≤ f → n ≤ g →
    natToBytesF f n = natToBytesF g n := by
  intro n
  induction n using Nat.strong_induction_on with
  | _ n ih =>
    intro f g hf hg
    rcases n with _ | n
    · rw [natToBytesF_zero_val, natToBytesF_zero_val]
    · rcases f with _ | f
      · omega
      · rcases g with _ | g
        · omega
        · simp only [natToBytesF, Nat.succ_ne_zero, if_false]
          have hd : (n + 1) / 256 < n + 1 := Nat.div_lt_self (by omega) (by omega)
          rw [ih ((n + 1) / 256) hd f g (by omega) (by omega)]

theorem foldl_base_le (l : List Nat) : ∀ a : Nat,
    a ≤ l.foldl (fun x b => 256 * x + b) a := by
  induction l with
  | nil => intro a; exact Nat.le_refl a
  | cons b l ih =>
    intro a
    exact Nat.le_trans (by omega) (ih (256 * a + b))

theorem IP2Int_append_byte (l : List Nat) (x : Nat) :
    IP2Int (l ++ [x]) = 256 * IP2Int l + x := by
  simp [IP2Int, List.foldl_append]

theorem Int2IP_mul_add (m x : Nat) (hm : m ≠ 0) (hx : x < 256) :
    Int2IP (256 * m + x) = Int2IP m ++ [x] := by
  have hpos : 256 * m + x ≠ 0 := by omega
  rcases Nat.exists_eq_succ_of_ne_zero hpos with ⟨k, hk⟩
  unfold Int2IP
  rw [hk]
  simp only [natToBytesF, Nat.succ_ne_zero, if_false]
  rw [← hk]
  have hdiv : (256 * m + x) / 256 = m := by
    rw [Nat.mul_add_div (by norm_num), Nat.div_eq_of_lt hx]
    omega
  have hmod : (256 * m + x) % 256 = x := by
    rw [Nat.mul_add_mod, Nat.mod_eq_of_lt hx]
  rw [hdiv, hmod]
  rw [natToBytesF_congr m k m (by omega) (Nat.le_refl m)]

/-! ## Concrete material used by the claims -/

/-- The metadata-bearing intervals used for the `Combine` metadata
counterexample: `[1,5]` with location `locA` and `[3,8]` with location
`locB` (distinct retries/timeout/foreign-source as well). -/
def rngA : IPAddressRange := ⟨1, 5, "locA", 3, 300, "fsA"⟩

def rngB : IPAddressRange := ⟨3, 8, "locB", 5, 500, "fsB"⟩

/-- The definition of the concrete estimation test: specifics
`192.168.0.1` and `192.168.0.2`, include CIDRs `172.20.0.0/16` and
`10.10.0.0/16`, exclude CIDRs `172.20.10.0/24` and `192.169.0.0/24`,
entered through the constructing operations of `Definition`. -/
def c6def : Definition :=
  (((((Definition.AddSpecific ⟨[], [], []⟩ (some [192, 168, 0, 1])).AddSpecific
    (some [192, 168, 0, 2])).IncludeCIDR [172, 20, 0, 0] 16).IncludeCIDR
    [10, 10, 0, 0] 16).ExcludeCIDR [172, 20, 10, 0] 24).ExcludeCIDR [192, 169, 0, 0] 24

/-! ## The claims -/

/-- Claim C1.  The claim states that after every single `Add` call the
sequence returned by `Get` is sorted ascending by begin with
`b.Begin > a.End + 1` for adjacent pairs.  The code violates this: after
`Add [1,2]`, `Add [10,20]`, `Add [5,6]` the set is
`[[5,6], [1,2], [10,20]]` — the insertion branch splices the new
interval in at index `i - 1` instead of `i`, so `[5,6]` lands in front
of `[1,2]` and the output is neither sorted nor separated. -/
theorem add_violates_separation_invariant :
    BigIP.addSeq [mkRange 1 2, mkRange 10 20, mkRange 5 6]
        = some [mkRange 5 6, mkRange 1 2, mkRange 10 20] ∧
      BigIP.pairwiseSeparated [mkRange 5 6, mkRange 1 2, mkRange 10 20] = false := by
  decide

/-- Claim C2.  The claim states that inserting a multiset of intervals
in any order yields the same final `Get` sequence, and that every
insertion order terminates normally.  Both parts fail: the two listed
permutations of `{[1,2], [5,6], [10,20]}` produce different final
sequences, and the order `[1,2]`, `[4,5]`, `[3,3]` panics (the third
`Add` combines twice and the second removal evaluates
`r.ipRanges[i+1:]` with `i + 1` beyond the slice length) while a
permutation of the same multiset returns `[[1,5]]` normally. -/
theorem add_order_dependent_and_panics :
    List.Perm [mkRange 1 2, mkRange 5 6, mkRange 10 20]
        [mkRange 1 2, mkRange 10 20, mkRange 5 6] ∧
      BigIP.addSeq [mkRange 1 2, mkRange 5 6, mkRange 10 20]
        = some [mkRange 1 2, mkRange 5 6, mkRange 10 20] ∧
      BigIP.addSeq [mkRange 1 2, mkRange 10 20, mkRange 5 6]
        = some [mkRange 5 6, mkRange 1 2, mkRange 10 20] ∧
      List.Perm [mkRange 1 2, mkRange 4 5, mkRange 3 3]
        [mkRange 3 3, mkRange 1 2, mkRange 4 5] ∧
      BigIP.addSeq [mkRange 1 2, mkRange 4 5, mkRange 3 3] = none ∧
      BigIP.addSeq [mkRange 3 3, mkRange 1 2, mkRange 4 5]
        = some [⟨1, 5, "", 0, 0, ""⟩] := by
  decide

/-- Claim C3, counterexample.  In the `uint32` implementation
(`src/ipranges.go`) `Add [3,8]` into the set `{[1,5]}` combines via
`n.Combine(ipr)` with incumbent `n = [1,5]` (metadata `locA`), yet the
merged interval carries the metadata of the inserted interval
(`locB`), not the incumbent's, refuting the claim that the metadata is
taken from the incumbent for every combinable pair. -/
theorem u32_combine_metadata_from_argument_cex :
    U32.addSeq [rngA, rngB] = some [⟨1, 8, "locB", 5, 500, "fsB"⟩] ∧
      (⟨1, 8, "locB", 5, 500, "fsB"⟩ : IPAddressRange).Location ≠ rngA.Location := by
  decide

/-- Claim C3, amended.  The two implementations disagree: the
`math/big` `Combine` (`src/unnamed/part_000`) takes the merged
metadata from the receiver (the incumbent `n` in `Add`), while the
`uint32` `Combine` (`src/ipranges.go`) takes it from the argument (the
interval being inserted). -/
theorem combine_metadata_by_variant :
    (∀ r ipr : IPAddressRange,
      (BigIP.Combine r ipr).Location = r.Location ∧
      (BigIP.Combine r ipr).Retries = r.Retries ∧
      (BigIP.Combine r ipr).Timeout = r.Timeout ∧
      (BigIP.Combine r ipr).ForeignSource = r.ForeignSource) ∧
    (∀ r ipr : IPAddressRange,
      (U32.Combine r ipr).Location = ipr.Location ∧
      (U32.Combine r ipr).Retries = ipr.Retries ∧
      (U32.Combine r ipr).Timeout = ipr.Timeout ∧
      (U32.Combine r ipr).ForeignSource = ipr.ForeignSource) := by
  exact ⟨fun r ipr => ⟨rfl, rfl, rfl, rfl⟩, fun r ipr => ⟨rfl, rfl, rfl, rfl⟩⟩

/-- Claim C4, counterexample.  With the set `[[1,2], [10,20]]` and new
interval `[5,6]`, the first existing interval that `[5,6]` strictly
comes before and is not adjacent to is `n = [10,20]` at position 1; the
claim says `[5,6]` is inserted at `n`'s position, giving
`[[1,2], [5,6], [10,20]]`, but the code inserts it at position 0,
giving `[[5,6], [1,2], [10,20]]`. -/
theorem add_insert_position_cex :
    BigIP.Add [mkRange 1 2, mkRange 10 20] (mkRange 5 6)
        = some [mkRange 5 6, mkRange 1 2, mkRange 10 20] ∧
      some [mkRange 5 6, mkRange 1 2, mkRange 10 20]
        ≠ some [mkRange 1 2, mkRange 5 6, mkRange 10 20] := by
  decide

/-- Claim C4, amended.  When the scan reaches the first interval `n`
with `new` strictly before `n` and not adjacent to it, having neither
inserted nor combined at any earlier interval, the new interval is
inserted at position `i - 1` — immediately before `n`'s predecessor —
clamped to position 0 when `n` is the first element (truncated `Nat`
subtraction renders the clamp), and the call returns. -/
theorem add_inserts_at_clamped_predecessor (pre post : List IPAddressRange)
    (n ipr : IPAddressRange)
    (hpre : ∀ m ∈ pre, (BigIP.ComesBefore ipr m && !BigIP.AdjacentJoins ipr m) = false ∧
      BigIP.Combinable m ipr = false)
    (hn : (BigIP.ComesBefore ipr n && !BigIP.AdjacentJoins ipr n) = true) :
    BigIP.Add (pre ++ n :: post) ipr
      = some ((pre ++ n :: post).take (pre.length - 1)
          ++ ipr :: (pre ++ n :: post).drop (pre.length - 1)) := by
  have h := addLoop_insert_aux ipr n post pre [] hpre hn
  simp only [List.nil_append, List.length_nil, Nat.zero_add] at h
  have hlen : (pre ++ n :: post).length = pre.length + (post.length + 1) := by
    simp
  rw [← hlen] at h
  rw [BigIP.Add]
  exact h

/-- Witness for the amended claim C4: inserting `[5,6]` into
`[[1,2], [10,20]]` lands at position `1 - 1 = 0`. -/
theorem add_inserts_at_clamped_predecessor_witness :
    BigIP.Add [mkRange 1 2, mkRange 10 20] (mkRange 5 6)
      = some [mkRange 5 6, mkRange 1 2, mkRange 10 20] := by
  have h := add_inserts_at_clamped_predecessor [mkRange 1 2] [] (mkRange 10 20)
    (mkRange 5 6) (by decide) (by decide)
  show BigIP.Add ([mkRange 1 2] ++ mkRange 10 20 :: []) (mkRange 5 6) = _
  rw [h]
  decide

/-- Claim C5.  The claim states that for CIDRs with a 0- or 1-bit host
portion `getRange` yields a `begin > end` range and the include/exclude
operations add nothing.  For `/32` CIDRs this fails: on `10.0.0.0/32`
the final byte-wise `--` of the last address wraps `0x00` to `0xFF`, so
`getRange` returns the non-empty range `10.0.0.1`–`10.0.0.255`
(`begin < end`), and `IncludeCIDR` appends that 255-address range to
the definition instead of leaving it unchanged.  (`/31` CIDRs do behave
as claimed, as the last conjunct shows for `10.0.0.0/31`.) -/
theorem includeCIDR_slash32_adds_range :
    Definition.getRange [10, 0, 0, 0] 32 = ([10, 0, 0, 1], [10, 0, 0, 255]) ∧
      IP2Int [10, 0, 0, 1] < IP2Int [10, 0, 0, 255] ∧
      Definition.IncludeCIDR ⟨[], [], []⟩ [10, 0, 0, 0] 32
        = ⟨[], [(0x0A000001, 0x0A0000FF)], []⟩ ∧
      Definition.IncludeCIDR ⟨[], [], []⟩ [10, 0, 0, 0] 31 = ⟨[], [], []⟩ := by
  decide


theorem trueCount_pair (s1 s2 a1 b1 a2 b2 : Nat) (ex : List (Nat × Nat)) :
    trueCount ⟨[s1, s2], [(a1, b1), (a2, b2)], ex⟩
      = countFrom (b1 + 1 - a1) a1 ex + (countFrom (b2 + 1 - a2) a2 ex + 0)
        + (List.filter (fun ip => !excludeRangesContain ex ip) [s1, s2]).length := by
  unfold trueCount
  simp only [List.map_cons, List.map_nil, List.sum_cons, List.sum_nil]

/-- Claim C6.  `GetTotalEstimatedAddresses` on the definition built from
specifics `192.168.0.1`, `192.168.0.2`, include CIDRs `172.20.0.0/16`
and `10.10.0.0/16` and exclude CIDRs `172.20.10.0/24` and
`192.169.0.0/24` returns exactly `130816` (and terminates: all
addresses involved are far below `2^63`, where the loop guard's int64
comparison is exact): each `/16` contributes the
usable range of 65534 addresses, the first minus the 254 addresses of
the excluded `172.20.10.1`–`172.20.10.254`, plus the 2 specifics
(`65280 + 65534 + 2`). -/
theorem total_estimated_addresses_concrete :
    c6def.GetTotalEstimatedAddresses = some 130816 := by
  have hc : c6def
      = ⟨[0xC0A80001, 0xC0A80002],
         [(0xAC140001, 0xAC14FFFE), (0x0A0A0001, 0x0A0AFFFE)],
         [(0xAC140A01, 0xAC140AFE), (0xC0A90001, 0xC0A900FE)]⟩ := by
    decide
  rw [hc, defTotal_eq_mod _ (by decide), trueCount_pair]
  have ha : countFrom (0xAC14FFFE + 1 - 0xAC140001) 0xAC140001
      [(0xAC140A01, 0xAC140AFE), (0xC0A90001, 0xC0A900FE)] = 65280 := by
    rw [congrArg
      (fun f => countFrom f 0xAC140001 [(0xAC140A01, 0xAC140AFE), (0xC0A90001, 0xC0A900FE)])
      (show (0xAC14FFFE + 1 - 0xAC140001 : Nat) = 2560 + (254 + 62720) from by norm_num)]
    rw [countFrom_split, countFrom_split]
    rw [countFrom_clean 2560 0xAC140001 _ (by decide)]
    rw [countFrom_covered 254 (0xAC140001 + 2560) _ (0xAC140A01, 0xAC140AFE)
      (by decide) (by decide) (by decide)]
    rw [countFrom_clean 62720 (0xAC140001 + 2560 + 254) _ (by decide)]
  have hb : countFrom (0x0A0AFFFE + 1 - 0x0A0A0001) 0x0A0A0001
      [(0xAC140A01, 0xAC140AFE), (0xC0A90001, 0xC0A900FE)] = 65534 := by
    rw [congrArg
      (fun f => countFrom f 0x0A0A0001 [(0xAC140A01, 0xAC140AFE), (0xC0A90001, 0xC0A900FE)])
      (show (0x0A0AFFFE + 1 - 0x0A0A0001 : Nat) = 65534 from by norm_num)]
    rw [countFrom_clean 65534 0x0A0A0001 _ (by decide)]
  have hl : (List.filter
      (fun ip => !excludeRangesContain
        [(0xAC140A01, 0xAC140AFE), (0xC0A90001, 0xC0A900FE)] ip)
      [0xC0A80001, 0xC0A80002]).length = 2 := by decide
  have e2 : countFrom (0xAC14FFFE + 1 - 0xAC140001) 0xAC140001
        [(0xAC140A01, 0xAC140AFE), (0xC0A90001, 0xC0A900FE)]
      + (countFrom (0x0A0AFFFE + 1 - 0x0A0A0001) 0x0A0A0001
          [(0xAC140A01, 0xAC140AFE), (0xC0A90001, 0xC0A900FE)] + 0)
      + (List.filter
          (fun ip => !excludeRangesContain
            [(0xAC140A01, 0xAC140AFE), (0xC0A90001, 0xC0A900FE)] ip)
          [0xC0A80001, 0xC0A80002]).length
      = 65280 + (65534 + 0) + 2 :=
    congrArg₂ (fun x y => x + y)
      (congrArg₂ (fun x y => x + y) ha (congrArg₂ (fun x y => x + y) hb (Eq.refl 0)))
      hl
  have e3 := congrArg (fun x => x % 2 ^ 32) e2
  have e4 : (65280 + (65534 + 0) + 2) % 2 ^ 32 = 130816 := by norm_num
  exact congrArg some (e3.trans e4)

/-- Claim C7, counterexample.  The codec does not round-trip for every
well-formed address: `0.0.0.1` (bytes `[0,0,0,1]`) encodes to the
integer 1, and `Int2IP 1` is the single byte `[1]` — `big.Int.Bytes()`
drops leading zero bytes — which is not a 4-byte IPv4 address at all. -/
theorem codec_roundtrip_cex :
    Int2IP (IP2Int [0, 0, 0, 1]) = [1] ∧ Int2IP (IP2Int [0, 0, 0, 1]) ≠ [0, 0, 0, 1] := by
  decide

/-- Claim C7, amended.  The codec round-trips exactly for every address
(of either family) whose canonical byte form has a non-zero leading
byte: for bytes `b :: bs` with `b ≠ 0`, `b < 256` and all of `bs`
`< 256`, `Int2IP (IP2Int (b :: bs)) = b :: bs`. -/
theorem codec_roundtrip_nonzero_head (b : Nat) (bs : List Nat) (hb : b ≠ 0)
    (hb2 : b < 256) (hbs : ∀ x ∈ bs, x < 256) :
    Int2IP (IP2Int (b :: bs)) = b :: bs := by
  induction bs using List.reverseRecOn with
  | nil =>
    have hval : IP2Int [b] = b := by simp [IP2Int]
    rw [hval]
    unfold Int2IP
    rcases Nat.exists_eq_succ_of_ne_zero hb with ⟨k, hk⟩
    rw [hk]
    simp only [natToBytesF, Nat.succ_ne_zero, if_false]
    rw [← hk, Nat.div_eq_of_lt hb2, Nat.mod_eq_of_lt hb2, natToBytesF_zero_val]
    simp
  | append_singleton l x ih =>
    have hx : x < 256 := hbs x (List.mem_append_right l (List.mem_singleton_self x))
    have hl : ∀ y ∈ l, y < 256 := fun y hy => hbs y (List.mem_append_left [x] hy)
    have happ : b :: (l ++ [x]) = (b :: l) ++ [x] := rfl
    rw [happ, IP2Int_append_byte]
    have hm : IP2Int (b :: l) ≠ 0 := by
      have h1 : b ≤ IP2Int (b :: l) := by
        have := foldl_base_le l (256 * 0 + b)
        simpa [IP2Int] using this
      omega
    rw [Int2IP_mul_add _ _ hm hx, ih hl]

/-- Witness for the amended claim C7: the round-trip at the concrete
address `192.168.0.1` (bytes `[192,168,0,1]`, non-zero leading byte). -/
theorem codec_roundtrip_nonzero_head_witness :
    Int2IP (IP2Int [192, 168, 0, 1]) = [192, 168, 0, 1] := by
  have h := codec_roundtrip_nonzero_head 192 [168, 0, 1] (by decide) (by decide) (by decide)
  exact h

/-- Claim C8, counterexample.  A literal that does not parse
(`net.ParseIP` returns `nil`, modelled as `none`) is silently dropped:
`AddSpecific` and `AddIncludeRange` just return, leaving the concrete
definition exactly unchanged, and their `void` Go signatures carry no
error value, so nothing is signalled to the caller — refuting the claim
that the failure is reported instead of a no-effect return. -/
theorem add_invalid_literal_cex :
    Definition.AddSpecific ⟨[0xC0A80001], [(1, 2)], [(3, 4)]⟩ none
        = ⟨[0xC0A80001], [(1, 2)], [(3, 4)]⟩ ∧
      Definition.AddIncludeRange ⟨[0xC0A80001], [(1, 2)], [(3, 4)]⟩ none
          (some [10, 0, 0, 1])
        = ⟨[0xC0A80001], [(1, 2)], [(3, 4)]⟩ := by
  exact ⟨rfl, rfl⟩

/-- Claim C8, amended.  On any literal that does not parse as an
IPv4/IPv6 address the constructing operations silently ignore the
input: they return with the definition unchanged and report nothing
(their Go signatures have no error result). -/
theorem add_invalid_literal_silently_ignored :
    ∀ (d : Definition) (e : Option (List Nat)),
      Definition.AddSpecific d none = d ∧
      Definition.AddIncludeRange d none e = d ∧
      Definition.AddIncludeRange d e none = d ∧
      Definition.AddExcludeRange d none e = d ∧
      Definition.AddExcludeRange d e none = d := by
  intro d e
  refine ⟨rfl, ?_, ?_, ?_, ?_⟩ <;> cases e <;> rfl

/-- Claim C9.  `getRange` computes the usable host range of a CIDR:
`172.16.0.0/24` yields `172.16.0.1`–`172.16.0.254`, and `2001::0/64`
yields `2001::1`–`2001::ffff:ffff:ffff:fffe`. -/
theorem getRange_usable_host_range :
    Definition.getRange [172, 16, 0, 0] 24 = ([172, 16, 0, 1], [172, 16, 0, 254]) ∧
      Definition.getRange [32, 1, 0, 0, 0, 0, 0, 0, 0, 0, 0, 0, 0, 0, 0, 0] 64
        = ([32, 1, 0, 0, 0, 0, 0, 0, 0, 0, 0, 0, 0, 0, 0, 1],
           [32, 1, 0, 0, 0, 0, 0, 0, 255, 255, 255, 255, 255, 255, 255, 254]) := by
  decide

/-- Claim C10, counterexample.  The loop guard is
`i.Int64() <= b.Int64()`, and `big.Int.Int64()` truncates for values
that do not fit in an `int64`: for the include range
`[2^63 - 2, 2^63 + 2]` (reachable through `AddIncludeRange`, since
begin <= end) the begin truncates to a large positive `int64` and the
end to a negative one, so the loop exits immediately and the method
returns 0 — but the true exclusion-aware count modulo `2^32` is 5.
The same holds through the configuration-level method, refuting the
for-every-configuration claim. -/
theorem total_estimated_int64_truncation_cex :
    (⟨[], [(2 ^ 63 - 2, 2 ^ 63 + 2)], []⟩ : Definition).GetTotalEstimatedAddresses
        = some 0 ∧
      (⟨[⟨[], [(2 ^ 63 - 2, 2 ^ 63 + 2)], []⟩]⟩
          : DiscoveryConfiguration).GetTotalEstimatedAddresses = some 0 ∧
      trueCount ⟨[], [(2 ^ 63 - 2, 2 ^ 63 + 2)], []⟩ % 2 ^ 32 = 5 ∧
      (0 : Nat) ≠ 5 := by
  decide

/-- Claim C10, amended.  The estimation is computed in 32-bit unsigned
arithmetic, but its loop guard compares `int64` truncations of the
`big.Int` addresses: for every definition whose include ranges all
satisfy `begin ≤ end + 1` and `end + 1 < 2^63` — in particular every
IPv4 configuration — the method terminates and returns the true
exclusion-aware count modulo `2^32`, and the configuration-level method
likewise returns the sum of the per-definition true counts modulo
`2^32`, so such a configuration implying `2^32` or more addresses
silently wraps; ranges with endpoints at or beyond `2^63` are
miscounted (see the counterexample). -/
theorem total_estimated_mod_2_pow_32_small :
    (∀ d : Definition, (∀ r ∈ d.IncludeRanges, r.1 ≤ r.2 + 1 ∧ r.2 + 1 < 2 ^ 63) →
      d.GetTotalEstimatedAddresses = some (trueCount d % 2 ^ 32)) ∧
    ∀ cfg : DiscoveryConfiguration,
      (∀ d ∈ cfg.Definitions, ∀ r ∈ d.IncludeRanges, r.1 ≤ r.2 + 1 ∧ r.2 + 1 < 2 ^ 63) →
      cfg.GetTotalEstimatedAddresses
        = some ((cfg.Definitions.map trueCount).sum % 2 ^ 32) := by
  constructor
  · exact defTotal_eq_mod
  · intro cfg h
    unfold DiscoveryConfiguration.GetTotalEstimatedAddresses
    rw [cfgFoldM_eq_mod _ _ (by norm_num) h, Nat.zero_add]

/-- Witness for the amended claim C10: a definition with specific 5,
include range `[1, 3]` and exclude range `[2, 2]` — all endpoints below
`2^63` — counts `some 3` at both levels. -/
theorem total_estimated_mod_2_pow_32_small_witness :
    (∀ r ∈ ([(1, 3)] : List (Nat × Nat)), r.1 ≤ r.2 + 1 ∧ r.2 + 1 < 2 ^ 63) ∧
      (⟨[5], [(1, 3)], [(2, 2)]⟩ : Definition).GetTotalEstimatedAddresses
        = some (trueCount ⟨[5], [(1, 3)], [(2, 2)]⟩ % 2 ^ 32) ∧
      (⟨[⟨[5], [(1, 3)], [(2, 2)]⟩]⟩ : DiscoveryConfiguration).GetTotalEstimatedAddresses
        = some ((([⟨[5], [(1, 3)], [(2, 2)]⟩] : List Definition).map trueCount).sum % 2 ^ 32) :=
  ⟨by decide,
   total_estimated_mod_2_pow_32_small.1 ⟨[5], [(1, 3)], [(2, 2)]⟩ (by decide),
   total_estimated_mod_2_pow_32_small.2 ⟨[⟨[5], [(1, 3)], [(2, 2)]⟩]⟩ (by decide)⟩
